import Mathlib

/-!
# Verification of the per-subscriber project watch adapter

A shallow embedding of `pkg/project/auth/watch.go`: the `userProjectWatcher`
type, its constructor `NewUserProjectWatcher`, the intake handler
`GroupMembershipChanged`, the relay loop `Watch`, and `Stop`.

Modelling conventions:
* Go channels become explicit data: the buffered channel `cacheIncoming`
  becomes a FIFO list together with its capacity, the one-slot channel
  `cacheError` becomes an `Option String`, and the closable channel
  `userStop` becomes a `Bool`.
* The external collaborators are parameters: the project cache's
  `GetNamespace` is a function `String → Option KNamespace` (with `none`
  standing for a lookup error), and the auth cache's `List` result is the
  `Option NamespaceList` pointer handed to the constructor.
* Side effects of a call are returned as data: `GroupMembershipChanged`
  returns the updated watcher state together with the event it attempted
  to enqueue (if any); the relay loop returns the list of actions it
  performs (event deliveries, the deregistration and the channel close).
* The nondeterminism of Go's `select` over several ready channels is
  resolved by an explicit schedule parameter; theorems quantify over all
  schedules.
-/

namespace ProjectAuthWatch

/-- A namespace object as held by the project cache (`kapi.Namespace`).  The
watcher inspects only the `Name` field; `payload` stands for all remaining
fields, carried through opaquely into events. -/
structure KNamespace where
  name : String
  payload : String
deriving DecidableEq

/-- The kind of a `watch.Event`: `watch.Added`, `watch.Modified`,
`watch.Deleted` or `watch.Error`. -/
inductive EventType
  | Added
  | Modified
  | Deleted
  | Error
deriving DecidableEq

/-- The object carried by an event: either a project (the image of a
namespace under `projectutil.ConvertNamespace`, which preserves its fields)
or an `unversioned.Status` carrying an error message. -/
inductive EventObject
  | project (ns : KNamespace)
  | status (msg : String)
deriving DecidableEq

/-- A `watch.Event`. -/
structure Event where
  type : EventType
  object : EventObject
deriving DecidableEq

/-- The membership test `sets.String.Has`. -/
def setHas (s : Finset String) (key : String) : Bool :=
  decide (key ∈ s)

/-- The test `sets.String.HasAny`: whether any of `keys` is in the set. -/
def setHasAny (s : Finset String) (keys : List String) : Bool :=
  keys.any fun k => setHas s k

/-- The state of a `userProjectWatcher`, together with the dispatcher-side
registration bit for this watcher.  `capacity` is the capacity of the
buffered channel `cacheIncoming` (1000 at construction); `cacheIncoming`
lists the buffered events oldest first; `cacheError` is the content of the
one-slot error channel; `stopped` records whether `userStop` has been
closed; `registered` records whether the watcher is still registered with
the dispatching auth cache — `RemoveWatcher` clears it, after which the
dispatcher makes no further `GroupMembershipChanged` calls to this
watcher. -/
structure WatcherState where
  username : String
  groups : List String
  capacity : Nat
  cacheIncoming : List Event
  cacheError : Option String
  stopped : Bool
  registered : Bool
  initialProjects : List KNamespace
  knownProjects : Finset String
deriving DecidableEq

/-- A `kapi.NamespaceList`. -/
structure NamespaceList where
  items : List KNamespace
deriving DecidableEq

/-- `NewUserProjectWatcher`.  The `listResult` argument is the pointer
returned by `authCache.List(userInfo)`; the accompanying error is discarded
by the source (`namespaces, _ := authCache.List(userInfo)`), so it does not
appear here.  When the pointer is nil (`none`) the loop over
`namespaces.Items` dereferences nil and panics, modelled by a `none`
result.  The `registered` bit is set because runs of the intake handler
begin once the caller has registered the watcher with the dispatcher. -/
def NewUserProjectWatcher (username : String) (groups : List String)
    (listResult : Option NamespaceList) (includeAllExistingProjects : Bool) :
    Option WatcherState :=
  match listResult with
  | none => none
  | some namespaces =>
    let knownProjects := namespaces.items.foldl (fun s item => insert item.name s) ∅
    let initialProjects := if includeAllExistingProjects then namespaces.items else []
    some
      { username := username
        groups := groups
        capacity := 1000
        cacheIncoming := []
        cacheError := none
        stopped := false
        registered := true
        initialProjects := initialProjects
        knownProjects := knownProjects }

/-- A single change notification as delivered to `GroupMembershipChanged`:
the namespace name and the six `sets.String` arguments. -/
structure ChangeNote where
  namespaceName : String
  latestUsers : Finset String
  latestGroups : Finset String
  removedUsers : Finset String
  removedGroups : Finset String
  addedUsers : Finset String
  addedGroups : Finset String

/-- The `hasAccess` computation of `GroupMembershipChanged`:
`latestUsers.Has(w.username) || lastestGroups.HasAny(w.groups...)`. -/
def gmcHasAccess (w : WatcherState) (n : ChangeNote) : Bool :=
  setHas n.latestUsers w.username || setHasAny n.latestGroups w.groups

/-- The `removed` computation of `GroupMembershipChanged`:
`!hasAccess && (removedUsers.Has(w.username) || removedGroups.HasAny(w.groups...))`. -/
def gmcRemoved (w : WatcherState) (n : ChangeNote) : Bool :=
  !gmcHasAccess w n && (setHas n.removedUsers w.username || setHasAny n.removedGroups w.groups)

/-- The non-blocking enqueue shared by both branches of
`GroupMembershipChanged`: `select { case w.cacheIncoming <- event: default:
w.authCache.RemoveWatcher(w); w.cacheError <- errors.New(msg) }`.  If the
buffer has room the event is appended; otherwise the watcher is removed
from the auth cache and the error message is placed in the error slot. -/
def enqueueOrFail (w : WatcherState) (event : Event) (msg : String) : WatcherState :=
  if w.cacheIncoming.length < w.capacity then
    { w with cacheIncoming := w.cacheIncoming ++ [event] }
  else
    { w with registered := false, cacheError := some msg }

/-- `GroupMembershipChanged`.  `getNs` is the project cache's
`GetNamespace` (`none` = lookup error, handled by `utilruntime.HandleError`
and an early return).  The result pairs the updated watcher state with the
event the handler attempted to enqueue, `none` when the call fell through
without producing an event. -/
def GroupMembershipChanged (getNs : String → Option KNamespace) (w : WatcherState)
    (n : ChangeNote) : WatcherState × Option Event :=
  if gmcRemoved w n then
    if !setHas w.knownProjects n.namespaceName then (w, none)
    else
      let w1 := { w with knownProjects := w.knownProjects.erase n.namespaceName }
      let event : Event :=
        ⟨EventType.Deleted, EventObject.project ⟨n.namespaceName, ""⟩⟩
      (enqueueOrFail w1 event "delete notification timeout", some event)
  else if gmcHasAccess w n then
    match getNs n.namespaceName with
    | none => (w, none)
    | some ns =>
      let event : Event :=
        ⟨if setHas w.knownProjects n.namespaceName then EventType.Modified else EventType.Added,
          EventObject.project ns⟩
      let w1 := { w with knownProjects := insert ns.name w.knownProjects }
      (enqueueOrFail w1 event "add notification timeout", some event)
  else (w, none)

/-- `Stop`: under `stopLock`, return if `userStop` is already closed,
otherwise close it. -/
def Stop (w : WatcherState) : WatcherState :=
  if w.stopped then w else { w with stopped := true }

/-- A run of the dispatcher delivering a list of change notifications to
this watcher's intake handler, serially and in order.  Once the watcher is
no longer registered the dispatcher makes no further calls.  Returns the
final state together with the list of events the handler attempted to
enqueue along the run. -/
def runIntakeLog (getNs : String → Option KNamespace) (w : WatcherState) :
    List ChangeNote → WatcherState × List Event
  | [] => (w, [])
  | n :: rest =>
    if w.registered then
      let res := GroupMembershipChanged getNs w n
      let tail := runIntakeLog getNs res.1 rest
      (tail.1, res.2.toList ++ tail.2)
    else (w, [])

/-- The final watcher state after a dispatcher run. -/
def runIntake (getNs : String → Option KNamespace) (w : WatcherState)
    (notes : List ChangeNote) : WatcherState :=
  (runIntakeLog getNs w notes).1

/-- A case of the relay loop's steady-state `select`: receive from
`cacheError`, from `userStop`, or from `cacheIncoming`. -/
inductive SelChoice
  | errC
  | stopC
  | bufC
deriving DecidableEq

/-- An observable action of the relay loop: delivery of an event to the
consumer through `outgoing`, the deferred `RemoveWatcher`, or the deferred
`close(outgoing)`. -/
inductive OutAct
  | emit (event : Event)
  | dereg
  | closeOut
deriving DecidableEq

/-- How a bounded observation of the relay loop ended: the loop returned,
or it is still waiting (blocked, or the observed schedule ran out). -/
inductive RelayRes
  | returned
  | suspended
deriving DecidableEq

/-- The injected `w.emit`: `select { case w.outgoing <- e: case <-w.userStop: }`.
When `userStop` is closed both cases can be ready; the schedule bit
`deliver` resolves the race.  When the watcher is not stopped the consumer
receives the event. -/
def emitActs (stopped deliver : Bool) (event : Event) : List OutAct :=
  if stopped && !deliver then [] else [OutAct.emit event]

/-- `makeErrorEvent`: a `watch.Error` event carrying an
`unversioned.Status` with the error's message. -/
def makeErrorEvent (msg : String) : Event :=
  ⟨EventType.Error, EventObject.status msg⟩

/-- The `watch.Added` event emitted for an initial project. -/
def addedEvent (ns : KNamespace) : Event :=
  ⟨EventType.Added, EventObject.project ns⟩

/-- Resolution of Go's `select` over the three steady-state cases: the
scheduled case is taken when ready; otherwise some ready case is taken
(quantifying over schedules covers every resolution); `none` when no case
is ready, so the loop blocks. -/
def effChoice (errReady stopReady bufReady : Bool) (c : SelChoice) : Option SelChoice :=
  if (match c with
      | SelChoice.errC => errReady
      | SelChoice.stopC => stopReady
      | SelChoice.bufC => bufReady) then some c
  else if errReady then some SelChoice.errC
  else if stopReady then some SelChoice.stopC
  else if bufReady then some SelChoice.bufC
  else none

/-- The steady-state loop of `Watch`: repeatedly `select` over
`cacheError` (emit the error event and return), `userStop` (return), and
`cacheIncoming` (update the high-water mark, forward the event, loop).
One schedule entry is consumed per iteration; an exhausted schedule or a
`select` with no ready case leaves the loop `suspended`. -/
def watchSteady : List (SelChoice × Bool) → List Event → Option String → Bool →
    List OutAct × RelayRes
  | [], _, _, _ => ([], RelayRes.suspended)
  | (c, d) :: sched, buffer, err, stopped =>
    match effChoice err.isSome stopped (!buffer.isEmpty) c with
    | none => ([], RelayRes.suspended)
    | some SelChoice.errC =>
      match err with
      | some m => (emitActs stopped d (makeErrorEvent m), RelayRes.returned)
      | none => ([], RelayRes.suspended)
    | some SelChoice.stopC => ([], RelayRes.returned)
    | some SelChoice.bufC =>
      match buffer with
      | [] => ([], RelayRes.suspended)
      | e :: buffer' =>
        let rest := watchSteady sched buffer' err stopped
        (emitActs stopped d e ++ rest.1, rest.2)

/-- The initial-snapshot phase of `Watch`: for each entry of
`initialProjects`, first poll `cacheError` (non-blocking); if it is set,
emit the error event and return; otherwise emit an `Added` event for the
entry.  When the snapshot is exhausted the loop enters the steady state.
One schedule entry is consumed per emit (for the `userStop` race inside
`emit`). -/
def watchInitial : List (SelChoice × Bool) → List KNamespace → List Event → Option String →
    Bool → List OutAct × RelayRes
  | sched, [], buffer, err, stopped => watchSteady sched buffer err stopped
  | sched, p :: rest, buffer, err, stopped =>
    match err with
    | some m =>
      match sched with
      | [] => ([], RelayRes.suspended)
      | (_, d) :: _ => (emitActs stopped d (makeErrorEvent m), RelayRes.returned)
    | none =>
      match sched with
      | [] => ([], RelayRes.suspended)
      | (_, d) :: sched' =>
        let tail := watchInitial sched' rest buffer err stopped
        (emitActs stopped d (addedEvent p) ++ tail.1, tail.2)

/-- The body of `Watch` run against a watcher state under a schedule. -/
def watchRun (sched : List (SelChoice × Bool)) (w : WatcherState) : List OutAct × RelayRes :=
  watchInitial sched w.initialProjects w.cacheIncoming w.cacheError w.stopped

/-- The observable actions of `Watch`: the body's deliveries, followed —
when the body returns — by the deferred `RemoveWatcher` and
`close(w.outgoing)` (the defers run in LIFO order after `HandleCrash`). -/
def watchActs (sched : List (SelChoice × Bool)) (w : WatcherState) : List OutAct :=
  (watchRun sched w).1 ++
    (match (watchRun sched w).2 with
     | RelayRes.returned => [OutAct.dereg, OutAct.closeOut]
     | RelayRes.suspended => [])

/-- Whether an action is the delivery of an `Error`-kind event. -/
def isErrorEmit : OutAct → Bool
  | OutAct.emit e => decide (e.type = EventType.Error)
  | _ => false

/-- The number of `Error`-kind deliveries among a list of actions. -/
def errorEmitCount (acts : List OutAct) : Nat :=
  (acts.filter isErrorEmit).length

/-- The name an event is about: the name of the carried project, `none`
for a status (error) event. -/
def eventName : Event → Option String
  | ⟨_, EventObject.project ns⟩ => some ns.name
  | ⟨_, EventObject.status _⟩ => none

/-- The kind of the last event in `log` that is about `name`. -/
def lastEventTypeFor (log : List Event) (name : String) : Option EventType :=
  (log.reverse.find? fun e => decide (eventName e = some name)).map Event.type

/-- The KnownSet invariant relating a watcher's `knownProjects` to an event
log: a name is known exactly when the last event about it (if any) is
`Added` or `Modified`; a name with no event in the log is known exactly
when it was in the set computed at construction. -/
def KnownSetInv (init : Finset String) (known : Finset String) (log : List Event) : Prop :=
  ∀ name : String,
    name ∈ known ↔
      match lastEventTypeFor log name with
      | some t => t = EventType.Added ∨ t = EventType.Modified
      | none => name ∈ init

/-! ## Example inputs used by witnesses and counterexamples -/

/-- A sample project cache: only the namespace `a` resolves. -/
def exGetNs : String → Option KNamespace :=
  fun name => if name = "a" then some ⟨"a", "pa"⟩ else none

/-- A sample registered watcher for user `u` in group `g` whose buffered
channel has capacity 2. -/
def exWatcher : WatcherState :=
  { username := "u"
    groups := ["g"]
    capacity := 2
    cacheIncoming := []
    cacheError := none
    stopped := false
    registered := true
    initialProjects := []
    knownProjects := ∅ }

/-- The watcher produced by `NewUserProjectWatcher "u" [] (some ⟨[]⟩) false`. -/
def exConstructed : WatcherState :=
  { username := "u"
    groups := []
    capacity := 1000
    cacheIncoming := []
    cacheError := none
    stopped := false
    registered := true
    initialProjects := []
    knownProjects := ∅ }

/-- A change granting user `u` access to namespace `a`. -/
def exNoteA : ChangeNote :=
  ⟨"a", {"u"}, ∅, ∅, ∅, ∅, ∅⟩

/-- A change granting user `u` access to namespace `b` (which the project
cache cannot resolve). -/
def exNoteB : ChangeNote :=
  ⟨"b", {"u"}, ∅, ∅, ∅, ∅, ∅⟩

/-- A removal of user `u` from namespace `b`. -/
def exNoteRemB : ChangeNote :=
  ⟨"b", ∅, ∅, {"u"}, ∅, ∅, ∅⟩

/-- A removal of user `u` from namespace `a`. -/
def exNoteRemA : ChangeNote :=
  ⟨"a", ∅, ∅, {"u"}, ∅, ∅, ∅⟩

/-- An `Added` event for namespace `a`. -/
def evAddA : Event :=
  ⟨EventType.Added, EventObject.project ⟨"a", "pa"⟩⟩

/-- A `Modified` event for namespace `a`. -/
def evModA : Event :=
  ⟨EventType.Modified, EventObject.project ⟨"a", "pa"⟩⟩

/-- A watcher whose 1000-slot buffer is completely full of `Modified`
events for namespace `a`, which is the only known project. -/
def wFull : WatcherState :=
  { username := "u"
    groups := []
    capacity := 1000
    cacheIncoming := List.replicate 1000 evModA
    cacheError := none
    stopped := false
    registered := true
    initialProjects := []
    knownProjects := {"a"} }

/-- A watcher whose error slot is already set while one buffered event is
still pending. -/
def wErrBuf : WatcherState :=
  { username := "u"
    groups := []
    capacity := 2
    cacheIncoming := [evAddA]
    cacheError := some "m"
    stopped := false
    registered := false
    initialProjects := []
    knownProjects := {"a"} }

/-- A stopped watcher with an empty buffer. -/
def wStopped : WatcherState :=
  { username := "u"
    groups := []
    capacity := 2
    cacheIncoming := []
    cacheError := none
    stopped := true
    registered := true
    initialProjects := []
    knownProjects := ∅ }

/-- A schedule that drains one buffered event and then takes the error. -/
def exSchedBufErr : List (SelChoice × Bool) :=
  [(SelChoice.bufC, true), (SelChoice.errC, true)]

/-! ## Helper lemmas -/

theorem mem_foldl_insert_name (items : List KNamespace) (init : Finset String) (x : String) :
    x ∈ items.foldl (fun s item => insert item.name s) init ↔
      x ∈ items.map KNamespace.name ∨ x ∈ init := by
  induction items generalizing init with
  | nil => simp
  | cons a l ih =>
    simp only [List.foldl_cons, ih, List.map_cons, List.mem_cons, Finset.mem_insert]
    tauto

theorem Stop_Stop (w : WatcherState) : Stop (Stop w) = Stop w := by
  by_cases h : w.stopped <;> simp [Stop, h]

theorem mem_emitActs {stopped deliver : Bool} {event : Event} {a : OutAct}
    (h : a ∈ emitActs stopped deliver event) : a = OutAct.emit event := by
  unfold emitActs at h
  split at h <;> simp_all

theorem watchSteady_acts_emit (sched : List (SelChoice × Bool)) :
    ∀ (buffer : List Event) (err : Option String) (stopped : Bool),
    ∀ a ∈ (watchSteady sched buffer err stopped).1, ∃ e, a = OutAct.emit e := by
  induction sched with
  | nil => intro buffer err stopped a ha; simp [watchSteady] at ha
  | cons hd tl ih =>
    intro buffer err stopped a ha
    obtain ⟨c, d⟩ := hd
    simp only [watchSteady] at ha
    split at ha
    · simp at ha
    · split at ha
      · exact ⟨_, mem_emitActs ha⟩
      · simp at ha
    · simp at ha
    · split at ha
      · simp at ha
      · rcases List.mem_append.1 ha with h | h
        · exact ⟨_, mem_emitActs h⟩
        · exact ih _ _ _ a h

theorem watchInitial_acts_emit (inits : List KNamespace) :
    ∀ (sched : List (SelChoice × Bool)) (buffer : List Event) (err : Option String)
      (stopped : Bool),
    ∀ a ∈ (watchInitial sched inits buffer err stopped).1, ∃ e, a = OutAct.emit e := by
  induction inits with
  | nil =>
    intro sched buffer err stopped a ha
    simp only [watchInitial] at ha
    exact watchSteady_acts_emit sched buffer err stopped a ha
  | cons p rest ih =>
    intro sched buffer err stopped a ha
    cases err with
    | some m =>
      cases sched with
      | nil => simp [watchInitial] at ha
      | cons hd tl =>
        obtain ⟨c, d⟩ := hd
        simp only [watchInitial] at ha
        exact ⟨_, mem_emitActs ha⟩
    | none =>
      cases sched with
      | nil => simp [watchInitial] at ha
      | cons hd tl =>
        obtain ⟨c, d⟩ := hd
        simp only [watchInitial] at ha
        rcases List.mem_append.1 ha with h | h
        · exact ⟨_, mem_emitActs h⟩
        · exact ih _ _ _ _ a h

theorem watchSteady_no_error (buffer : List Event) :
    ∀ sched : List (SelChoice × Bool), buffer.length ≤ sched.length →
    watchSteady sched buffer none false = (buffer.map OutAct.emit, RelayRes.suspended) := by
  induction buffer with
  | nil =>
    intro sched _
    cases sched with
    | nil => rfl
    | cons hd tl =>
      obtain ⟨c, d⟩ := hd
      cases c <;> simp [watchSteady, effChoice]
  | cons e buffer' ih =>
    intro sched hlen
    cases sched with
    | nil => simp at hlen
    | cons hd tl =>
      obtain ⟨c, d⟩ := hd
      have ht := ih tl (by simpa using hlen)
      cases c <;> simp [watchSteady, effChoice, emitActs, ht]

theorem watchInitial_no_error (inits : List KNamespace) :
    ∀ (sched : List (SelChoice × Bool)) (buffer : List Event),
    inits.length + buffer.length ≤ sched.length →
    watchInitial sched inits buffer none false =
      ((inits.map fun p => OutAct.emit (addedEvent p)) ++ buffer.map OutAct.emit,
        RelayRes.suspended) := by
  induction inits with
  | nil =>
    intro sched buffer h
    simpa [watchInitial] using watchSteady_no_error buffer sched (by simpa using h)
  | cons p rest ih =>
    intro sched buffer h
    cases sched with
    | nil => simp at h
    | cons hd tl =>
      obtain ⟨c, d⟩ := hd
      have ht := ih tl buffer (by simp at h ⊢; omega)
      simp [watchInitial, emitActs, ht]

theorem watchSteady_error_terminal (buffer : List Event) :
    ∀ (sched : List (SelChoice × Bool)) (m : String), buffer.length < sched.length →
    ∃ k, watchSteady sched buffer (some m) false =
      ((buffer.take k).map OutAct.emit ++ [OutAct.emit (makeErrorEvent m)],
        RelayRes.returned) := by
  induction buffer with
  | nil =>
    intro sched m hlen
    cases sched with
    | nil => simp at hlen
    | cons hd tl =>
      obtain ⟨c, d⟩ := hd
      exact ⟨0, by cases c <;> simp [watchSteady, effChoice, emitActs]⟩
  | cons e buffer' ih =>
    intro sched m hlen
    cases sched with
    | nil => simp at hlen
    | cons hd tl =>
      obtain ⟨c, d⟩ := hd
      cases c with
      | errC => exact ⟨0, by simp [watchSteady, effChoice, emitActs]⟩
      | stopC => exact ⟨0, by simp [watchSteady, effChoice, emitActs]⟩
      | bufC =>
        obtain ⟨k, hk⟩ := ih tl m (by simpa using hlen)
        exact ⟨k + 1, by simp [watchSteady, effChoice, emitActs, hk]⟩

theorem watchInitial_error_terminal (inits : List KNamespace)
    (sched : List (SelChoice × Bool)) (buffer : List Event) (m : String)
    (hlen : inits.length + buffer.length < sched.length) :
    ∃ k, watchInitial sched inits buffer (some m) false =
      ((buffer.take k).map OutAct.emit ++ [OutAct.emit (makeErrorEvent m)],
        RelayRes.returned) := by
  cases inits with
  | nil =>
    simpa only [watchInitial] using
      watchSteady_error_terminal buffer sched m (by simpa using hlen)
  | cons p rest =>
    cases sched with
    | nil => simp at hlen
    | cons hd tl =>
      obtain ⟨c, d⟩ := hd
      exact ⟨0, by simp [watchInitial, emitActs]⟩

theorem enqueueOrFail_lt (w : WatcherState) (ev : Event) (msg : String)
    (h : w.cacheIncoming.length < w.capacity) :
    enqueueOrFail w ev msg = { w with cacheIncoming := w.cacheIncoming ++ [ev] } := by
  simp [enqueueOrFail, h]

theorem enqueueOrFail_ge (w : WatcherState) (ev : Event) (msg : String)
    (h : ¬ w.cacheIncoming.length < w.capacity) :
    enqueueOrFail w ev msg = { w with registered := false, cacheError := some msg } := by
  simp [enqueueOrFail, h]

theorem gmc_shape (getNs : String → Option KNamespace) (w : WatcherState) (n : ChangeNote) :
    GroupMembershipChanged getNs w n = (w, none) ∨
    ∃ w1 ev msg,
      (msg = "delete notification timeout" ∨ msg = "add notification timeout") ∧
      ev.type ≠ EventType.Error ∧
      GroupMembershipChanged getNs w n = (enqueueOrFail w1 ev msg, some ev) ∧
      w1.cacheIncoming = w.cacheIncoming ∧ w1.cacheError = w.cacheError ∧
      w1.registered = w.registered ∧ w1.capacity = w.capacity ∧
      w1.stopped = w.stopped ∧ w1.initialProjects = w.initialProjects ∧
      ((ev.type = EventType.Deleted ∧ eventName ev = some n.namespaceName ∧
          w1.knownProjects = w.knownProjects.erase n.namespaceName) ∨
        ∃ ns : KNamespace, (ev.type = EventType.Added ∨ ev.type = EventType.Modified) ∧
          eventName ev = some ns.name ∧
          w1.knownProjects = insert ns.name w.knownProjects) := by
  by_cases hrem : gmcRemoved w n = true
  · by_cases hknown : setHas w.knownProjects n.namespaceName = true
    · right
      exact ⟨{ w with knownProjects := w.knownProjects.erase n.namespaceName },
        ⟨EventType.Deleted, EventObject.project ⟨n.namespaceName, ""⟩⟩,
        "delete notification timeout", Or.inl rfl, by simp,
        by simp [GroupMembershipChanged, hrem, hknown], rfl, rfl, rfl, rfl, rfl, rfl,
        Or.inl ⟨rfl, rfl, rfl⟩⟩
    · left
      simp [GroupMembershipChanged, hrem, hknown]
  · by_cases hacc : gmcHasAccess w n = true
    · cases hg : getNs n.namespaceName with
      | none => left; simp [GroupMembershipChanged, hrem, hacc, hg]
      | some ns =>
        right
        refine ⟨{ w with knownProjects := insert ns.name w.knownProjects },
          ⟨if setHas w.knownProjects n.namespaceName then EventType.Modified
            else EventType.Added, EventObject.project ns⟩,
          "add notification timeout", Or.inr rfl, ?_,
          by simp [GroupMembershipChanged, hrem, hacc, hg], rfl, rfl, rfl, rfl, rfl, rfl,
          Or.inr ⟨ns, ?_, rfl, rfl⟩⟩
        · rcases Bool.eq_false_or_eq_true (setHas w.knownProjects n.namespaceName) with h | h <;>
            simp [h]
        · rcases Bool.eq_false_or_eq_true (setHas w.knownProjects n.namespaceName) with h | h <;>
            simp [h]
    · left
      simp [GroupMembershipChanged, hrem, hacc]

theorem enqueueOrFail_preserves (w : WatcherState) (ev : Event) (msg : String) :
    (enqueueOrFail w ev msg).stopped = w.stopped ∧
    (enqueueOrFail w ev msg).capacity = w.capacity ∧
    (enqueueOrFail w ev msg).initialProjects = w.initialProjects := by
  unfold enqueueOrFail
  split <;> exact ⟨rfl, rfl, rfl⟩

theorem gmc_preserves (getNs : String → Option KNamespace) (w : WatcherState) (n : ChangeNote) :
    (GroupMembershipChanged getNs w n).1.stopped = w.stopped ∧
    (GroupMembershipChanged getNs w n).1.capacity = w.capacity ∧
    (GroupMembershipChanged getNs w n).1.initialProjects = w.initialProjects := by
  rcases gmc_shape getNs w n with h | ⟨w1, ev, msg, _, _, heq, _, _, _, hcap, hstop, hinit, _⟩
  · rw [h]
    exact ⟨rfl, rfl, rfl⟩
  · rw [heq]
    obtain ⟨h1, h2, h3⟩ := enqueueOrFail_preserves w1 ev msg
    exact ⟨h1.trans hstop, h2.trans hcap, h3.trans hinit⟩

theorem runIntakeLog_unreg (getNs : String → Option KNamespace) (w : WatcherState)
    (notes : List ChangeNote) (h : w.registered = false) :
    runIntakeLog getNs w notes = (w, []) := by
  cases notes with
  | nil => rfl
  | cons n rest => simp [runIntakeLog, h]

theorem runIntakeLog_length_le (getNs : String → Option KNamespace) (notes : List ChangeNote) :
    ∀ w : WatcherState, (runIntakeLog getNs w notes).2.length ≤ notes.length := by
  induction notes with
  | nil => intro w; simp [runIntakeLog]
  | cons n rest ih =>
    intro w
    rcases Bool.eq_false_or_eq_true w.registered with h | h
    · have hb := ih (GroupMembershipChanged getNs w n).1
      have ht : (GroupMembershipChanged getNs w n).2.toList.length ≤ 1 := by
        cases (GroupMembershipChanged getNs w n).2 <;> simp
      simp [runIntakeLog, h]
      omega
    · simp [runIntakeLog, h]

/-- An induction principle for dispatcher runs: any property preserved by
every handler call made while registered holds at the end of every run. -/
theorem runIntake_ind (getNs : String → Option KNamespace) (P : WatcherState → Prop)
    (hstep : ∀ w n, w.registered = true → P w → P (GroupMembershipChanged getNs w n).1) :
    ∀ (notes : List ChangeNote) (w : WatcherState), P w → P (runIntake getNs w notes) := by
  intro notes
  induction notes with
  | nil => intro w h; simpa [runIntake, runIntakeLog] using h
  | cons n rest ih =>
    intro w h
    rcases Bool.eq_false_or_eq_true w.registered with hr | hr
    · have h1 := hstep w n hr h
      simpa [runIntake, runIntakeLog, hr] using ih _ h1
    · simpa [runIntake, runIntakeLog, hr] using h

theorem runIntake_preserves (getNs : String → Option KNamespace) (w : WatcherState)
    (notes : List ChangeNote) :
    (runIntake getNs w notes).stopped = w.stopped ∧
    (runIntake getNs w notes).capacity = w.capacity ∧
    (runIntake getNs w notes).initialProjects = w.initialProjects :=
  runIntake_ind getNs
    (fun w' => w'.stopped = w.stopped ∧ w'.capacity = w.capacity ∧
      w'.initialProjects = w.initialProjects)
    (fun w' n _ h => by
      obtain ⟨h1, h2, h3⟩ := gmc_preserves getNs w' n
      exact ⟨h1.trans h.1, h2.trans h.2.1, h3.trans h.2.2⟩)
    notes w ⟨rfl, rfl, rfl⟩

theorem runIntake_err_unreg (getNs : String → Option KNamespace) (w : WatcherState)
    (notes : List ChangeNote) (h : w.cacheError = none) :
    (runIntake getNs w notes).cacheError.isSome →
      (runIntake getNs w notes).registered = false := by
  refine runIntake_ind getNs (fun w' => w'.cacheError.isSome → w'.registered = false)
    ?_ notes w (by simp [h])
  intro w' n _ hI
  rcases gmc_shape getNs w' n with hs | ⟨w1, ev, msg, _, _, heq, _, herr1, hreg1, _, _, _⟩
  · rw [hs]; exact hI
  · rw [heq]
    by_cases hlen : w1.cacheIncoming.length < w1.capacity
    · rw [enqueueOrFail_lt w1 ev msg hlen]
      intro hs
      have hs' : w1.cacheError.isSome := hs
      have : w'.cacheError.isSome := herr1 ▸ hs'
      have := hI this
      show w1.registered = false
      rw [hreg1]
      exact this
    · rw [enqueueOrFail_ge w1 ev msg hlen]
      intro _
      rfl

theorem runIntake_buffer_no_error (getNs : String → Option KNamespace) (w : WatcherState)
    (notes : List ChangeNote)
    (h : ∀ e ∈ w.cacheIncoming, e.type ≠ EventType.Error) :
    ∀ e ∈ (runIntake getNs w notes).cacheIncoming, e.type ≠ EventType.Error := by
  refine runIntake_ind getNs
    (fun w' => ∀ e ∈ w'.cacheIncoming, e.type ≠ EventType.Error) ?_ notes w h
  intro w' n _ hI
  rcases gmc_shape getNs w' n with hs | ⟨w1, ev, msg, _, hev, heq, hbuf1, _, _, _, _, _⟩
  · rw [hs]; exact hI
  · rw [heq]
    by_cases hlen : w1.cacheIncoming.length < w1.capacity
    · rw [enqueueOrFail_lt w1 ev msg hlen]
      intro e he
      have he' : e ∈ w1.cacheIncoming ++ [ev] := he
      rcases List.mem_append.1 he' with h1 | h1
      · exact hI e (hbuf1 ▸ h1)
      · simpa using (List.mem_singleton.1 h1) ▸ hev
    · rw [enqueueOrFail_ge w1 ev msg hlen]
      intro e he
      have he' : e ∈ w1.cacheIncoming := he
      exact hI e (hbuf1 ▸ he')

theorem runIntakeLog_append (getNs : String → Option KNamespace) (a : List ChangeNote) :
    ∀ (w : WatcherState) (b : List ChangeNote),
    runIntakeLog getNs w (a ++ b) =
      ((runIntakeLog getNs (runIntake getNs w a) b).1,
        (runIntakeLog getNs w a).2 ++ (runIntakeLog getNs (runIntake getNs w a) b).2) := by
  induction a with
  | nil => intro w b; simp [runIntake, runIntakeLog]
  | cons n rest ih =>
    intro w b
    rcases Bool.eq_false_or_eq_true w.registered with hr | hr
    · simp [runIntake, runIntakeLog, hr, ih]
    · simp [runIntake, runIntakeLog, hr, runIntakeLog_unreg getNs w b hr]

theorem runIntake_no_overflow_buffer (getNs : String → Option KNamespace)
    (notes : List ChangeNote) : ∀ w : WatcherState, w.cacheError = none →
    (runIntake getNs w notes).cacheError = none →
    (runIntake getNs w notes).cacheIncoming =
      w.cacheIncoming ++ (runIntakeLog getNs w notes).2 ∧
    (runIntake getNs w notes).registered = w.registered := by
  induction notes with
  | nil => intro w _ _; simp [runIntake, runIntakeLog]
  | cons n rest ih =>
    intro w h1 h2
    rcases Bool.eq_false_or_eq_true w.registered with hr | hr
    case inr => simp [runIntake, runIntakeLog, hr]
    rcases gmc_shape getNs w n with hs |
      ⟨w1, ev, msg, _, _, heq, hbuf1, herr1, hreg1, hcap1, _, _⟩
    · have e1 : runIntake getNs w (n :: rest) = runIntake getNs w rest := by
        simp [runIntake, runIntakeLog, hr, hs]
      have e2 : (runIntakeLog getNs w (n :: rest)).2 = (runIntakeLog getNs w rest).2 := by
        simp [runIntakeLog, hr, hs]
      rw [e1, e2]
      exact ih w h1 (by rwa [e1] at h2)
    · by_cases hlen : w1.cacheIncoming.length < w1.capacity
      · have hres : GroupMembershipChanged getNs w n =
            ({ w1 with cacheIncoming := w1.cacheIncoming ++ [ev] }, some ev) := by
          rw [heq, enqueueOrFail_lt w1 ev msg hlen]
        have e1 : runIntake getNs w (n :: rest) =
            runIntake getNs { w1 with cacheIncoming := w1.cacheIncoming ++ [ev] } rest := by
          simp [runIntake, runIntakeLog, hr, hres]
        have e2 : (runIntakeLog getNs w (n :: rest)).2 =
            ev :: (runIntakeLog getNs { w1 with cacheIncoming := w1.cacheIncoming ++ [ev] }
              rest).2 := by
          simp [runIntakeLog, hr, hres]
        rw [e1, e2]
        have hw2err : ({ w1 with cacheIncoming := w1.cacheIncoming ++ [ev] } :
            WatcherState).cacheError = none := by
          show w1.cacheError = none
          rw [herr1]; exact h1
        obtain ⟨ha, hb⟩ := ih _ hw2err (by rwa [e1] at h2)
        constructor
        · rw [ha]
          show w1.cacheIncoming ++ [ev] ++ _ = _
          rw [hbuf1, List.append_assoc]
          rfl
        · rw [hb]
          show w1.registered = w.registered
          exact hreg1
      · have hres : GroupMembershipChanged getNs w n =
            ({ w1 with registered := false, cacheError := some msg }, some ev) := by
          rw [heq, enqueueOrFail_ge w1 ev msg hlen]
        have e1 : runIntake getNs w (n :: rest) =
            { w1 with registered := false, cacheError := some msg } := by
          simp [runIntake, runIntakeLog, hr, hres,
            runIntakeLog_unreg getNs { w1 with registered := false, cacheError := some msg }
              rest rfl]
        rw [e1] at h2
        exact absurd h2 (by simp)

theorem runIntake_overflow_core (getNs : String → Option KNamespace)
    (notes : List ChangeNote) : ∀ w : WatcherState,
    w.registered = true → w.cacheError = none →
    w.cacheIncoming.length ≤ w.capacity →
    (runIntakeLog getNs w notes).2.length = notes.length →
    w.cacheIncoming.length + notes.length = w.capacity + 1 →
    (runIntake getNs w notes).registered = false ∧
    (∃ m, (runIntake getNs w notes).cacheError = some m ∧
      (m = "add notification timeout" ∨ m = "delete notification timeout")) ∧
    (runIntake getNs w notes).cacheIncoming.length = w.capacity := by
  induction notes with
  | nil =>
    intro w _ _ hle _ hcount
    simp at hcount
    exact absurd hcount (by omega)
  | cons n rest ih =>
    intro w hr herr hle hall hcount
    rcases gmc_shape getNs w n with hs |
      ⟨w1, ev, msg, hmsg, _, heq, hbuf1, herr1, hreg1, hcap1, _, _⟩
    · have hb := runIntakeLog_length_le getNs rest (GroupMembershipChanged getNs w n).1
      rw [hs] at hb
      have hall' : (runIntakeLog getNs w rest).2.length = rest.length + 1 := by
        simpa [runIntakeLog, hr, hs] using hall
      exact absurd hall' (by simp at hb; omega)
    · by_cases hlen : w1.cacheIncoming.length < w1.capacity
      · have hlenw : w.cacheIncoming.length < w.capacity := by
          rw [← hbuf1, ← hcap1]; exact hlen
        have hres : GroupMembershipChanged getNs w n =
            ({ w1 with cacheIncoming := w1.cacheIncoming ++ [ev] }, some ev) := by
          rw [heq, enqueueOrFail_lt w1 ev msg hlen]
        have e1 : runIntake getNs w (n :: rest) =
            runIntake getNs { w1 with cacheIncoming := w1.cacheIncoming ++ [ev] } rest := by
          simp [runIntake, runIntakeLog, hr, hres]
        have hW2reg : ({ w1 with cacheIncoming := w1.cacheIncoming ++ [ev] } :
            WatcherState).registered = true := by
          show w1.registered = true; rw [hreg1]; exact hr
        have hW2err : ({ w1 with cacheIncoming := w1.cacheIncoming ++ [ev] } :
            WatcherState).cacheError = none := by
          show w1.cacheError = none; rw [herr1]; exact herr
        have hW2len : ({ w1 with cacheIncoming := w1.cacheIncoming ++ [ev] } :
            WatcherState).cacheIncoming.length = w.cacheIncoming.length + 1 := by
          show (w1.cacheIncoming ++ [ev]).length = _
          rw [hbuf1]; simp
        have hW2cap : ({ w1 with cacheIncoming := w1.cacheIncoming ++ [ev] } :
            WatcherState).capacity = w.capacity := by
          show w1.capacity = _; exact hcap1
        have hall' : (runIntakeLog getNs
            { w1 with cacheIncoming := w1.cacheIncoming ++ [ev] } rest).2.length =
            rest.length := by
          have h0 : (runIntakeLog getNs w (n :: rest)).2.length = rest.length + 1 := by
            rw [hall]; simp
          simpa [runIntakeLog, hr, hres] using h0
        have hconc := ih { w1 with cacheIncoming := w1.cacheIncoming ++ [ev] }
          hW2reg hW2err (by rw [hW2len, hW2cap]; omega) hall'
          (by rw [hW2len, hW2cap]; simp at hcount; omega)
        rcases hconc with ⟨c1, c2, c3⟩
        rw [e1]
        exact ⟨c1, c2, by rw [c3, hW2cap]⟩
      · have hres : GroupMembershipChanged getNs w n =
            ({ w1 with registered := false, cacheError := some msg }, some ev) := by
          rw [heq, enqueueOrFail_ge w1 ev msg hlen]
        have e1 : runIntake getNs w (n :: rest) =
            { w1 with registered := false, cacheError := some msg } := by
          simp [runIntake, runIntakeLog, hr, hres,
            runIntakeLog_unreg getNs { w1 with registered := false, cacheError := some msg }
              rest rfl]
        rw [e1]
        refine ⟨rfl, ⟨msg, rfl, ?_⟩, ?_⟩
        · rcases hmsg with h | h
          · exact Or.inr h
          · exact Or.inl h
        · have hnlt : ¬ w.cacheIncoming.length < w.capacity := by
            rw [← hbuf1, ← hcap1]; exact hlen
          show w1.cacheIncoming.length = w.capacity
          rw [hbuf1]
          omega

theorem errorEmitCount_append (l₁ l₂ : List OutAct) :
    errorEmitCount (l₁ ++ l₂) = errorEmitCount l₁ + errorEmitCount l₂ := by
  simp [errorEmitCount, List.filter_append]

theorem errorEmitCount_emit_zero (events : List Event)
    (h : ∀ e ∈ events, e.type ≠ EventType.Error) :
    errorEmitCount (events.map OutAct.emit) = 0 := by
  induction events with
  | nil => rfl
  | cons e es ih =>
    have he := h e (by simp)
    have hf : isErrorEmit (OutAct.emit e) = false := by simp [isErrorEmit, he]
    simpa [errorEmitCount, hf] using ih fun x hx => h x (by simp [hx])

theorem errorEmitCount_pos_of_mem {acts : List OutAct} {e : Event}
    (hmem : OutAct.emit e ∈ acts) (he : e.type = EventType.Error) :
    0 < errorEmitCount acts := by
  have h1 : OutAct.emit e ∈ acts.filter isErrorEmit :=
    List.mem_filter.2 ⟨hmem, by simp [isErrorEmit, he]⟩
  exact List.length_pos_of_mem h1

theorem watchSteady_error_structure (sched : List (SelChoice × Bool)) :
    ∀ (buffer : List Event) (err : Option String) (stopped : Bool),
    (∀ e ∈ buffer, e.type ≠ EventType.Error) →
    errorEmitCount (watchSteady sched buffer err stopped).1 = 0 ∨
    ∃ pre m, watchSteady sched buffer err stopped =
        (pre ++ [OutAct.emit (makeErrorEvent m)], RelayRes.returned) ∧
      errorEmitCount pre = 0 := by
  induction sched with
  | nil => intro buffer err stopped _; left; simp [watchSteady, errorEmitCount]
  | cons hd tl ih =>
    intro buffer err stopped h
    obtain ⟨c, d⟩ := hd
    cases heff : effChoice err.isSome stopped (!buffer.isEmpty) c with
    | none => left; simp [watchSteady, heff, errorEmitCount]
    | some c' =>
      cases c' with
      | errC =>
        cases err with
        | none =>
          left
          simp only [Option.isSome_none] at heff
          simp [watchSteady, heff, errorEmitCount]
        | some m =>
          simp only [Option.isSome_some] at heff
          have hws : watchSteady ((c, d) :: tl) buffer (some m) stopped =
              (emitActs stopped d (makeErrorEvent m), RelayRes.returned) := by
            simp [watchSteady, heff]
          rw [hws]
          unfold emitActs
          split
          · left; simp [errorEmitCount]
          · right; exact ⟨[], m, rfl, rfl⟩
      | stopC => left; simp [watchSteady, heff, errorEmitCount]
      | bufC =>
        cases buffer with
        | nil =>
          left
          simp only [List.isEmpty_nil, Bool.not_true] at heff
          simp [watchSteady, heff, errorEmitCount]
        | cons e buffer' =>
          simp only [List.isEmpty_cons, Bool.not_false] at heff
          have he : e.type ≠ EventType.Error := h e (by simp)
          have hcnt : errorEmitCount (emitActs stopped d e) = 0 := by
            unfold emitActs; split <;> simp [errorEmitCount, isErrorEmit, he]
          have hws : watchSteady ((c, d) :: tl) (e :: buffer') err stopped =
              (emitActs stopped d e ++ (watchSteady tl buffer' err stopped).1,
                (watchSteady tl buffer' err stopped).2) := by
            simp [watchSteady, heff]
          rw [hws]
          rcases ih buffer' err stopped (fun x hx => h x (by simp [hx])) with h0 |
            ⟨pre, m, hpre, hprecnt⟩
          · left
            simp [errorEmitCount_append, hcnt, h0]
          · right
            refine ⟨emitActs stopped d e ++ pre, m, ?_, ?_⟩
            · rw [hpre]
              simp [List.append_assoc]
            · simp [errorEmitCount_append, hcnt, hprecnt]

theorem watchInitial_error_structure (inits : List KNamespace) :
    ∀ (sched : List (SelChoice × Bool)) (buffer : List Event) (err : Option String)
      (stopped : Bool),
    (∀ e ∈ buffer, e.type ≠ EventType.Error) →
    errorEmitCount (watchInitial sched inits buffer err stopped).1 = 0 ∨
    ∃ pre m, watchInitial sched inits buffer err stopped =
        (pre ++ [OutAct.emit (makeErrorEvent m)], RelayRes.returned) ∧
      errorEmitCount pre = 0 := by
  induction inits with
  | nil =>
    intro sched buffer err stopped h
    simpa only [watchInitial] using watchSteady_error_structure sched buffer err stopped h
  | cons p rest ih =>
    intro sched buffer err stopped h
    cases err with
    | some m =>
      cases sched with
      | nil => left; simp [watchInitial, errorEmitCount]
      | cons hd tl =>
        obtain ⟨c, d⟩ := hd
        simp only [watchInitial]
        unfold emitActs
        split
        · left; simp [errorEmitCount]
        · right; exact ⟨[], m, rfl, rfl⟩
    | none =>
      cases sched with
      | nil => left; simp [watchInitial, errorEmitCount]
      | cons hd tl =>
        obtain ⟨c, d⟩ := hd
        simp only [watchInitial]
        have hcnt : errorEmitCount (emitActs stopped d (addedEvent p)) = 0 := by
          unfold emitActs; split <;> simp [errorEmitCount, isErrorEmit, addedEvent]
        rcases ih tl buffer none stopped h with h0 | ⟨pre, m, hpre, hprecnt⟩
        · left
          simp [errorEmitCount_append, hcnt, h0]
        · right
          refine ⟨emitActs stopped d (addedEvent p) ++ pre, m, ?_, ?_⟩
          · rw [hpre]
            simp [List.append_assoc]
          · simp [errorEmitCount_append, hcnt, hprecnt]

theorem enqueueOrFail_knownProjects (w : WatcherState) (ev : Event) (msg : String) :
    (enqueueOrFail w ev msg).knownProjects = w.knownProjects := by
  unfold enqueueOrFail
  split <;> rfl

theorem lastEventTypeFor_append_match (log : List Event) (ev : Event) (name : String)
    (h : eventName ev = some name) :
    lastEventTypeFor (log ++ [ev]) name = some ev.type := by
  simp [lastEventTypeFor, List.reverse_append, h]

theorem lastEventTypeFor_append_skip (log : List Event) (ev : Event) (name : String)
    (h : ¬ eventName ev = some name) :
    lastEventTypeFor (log ++ [ev]) name = lastEventTypeFor log name := by
  simp [lastEventTypeFor, List.reverse_append, h]

theorem lastEventTypeFor_replicate_match (k : Nat) (ev : Event) (name : String)
    (h : eventName ev = some name) :
    lastEventTypeFor (List.replicate (k + 1) ev) name = some ev.type := by
  unfold lastEventTypeFor
  rw [List.reverse_replicate, List.replicate_succ, List.find?_cons_of_pos _ (by simp [h])]
  rfl

theorem lastEventTypeFor_replicate_skip (k : Nat) (ev : Event) (name : String)
    (h : ¬ eventName ev = some name) :
    lastEventTypeFor (List.replicate k ev) name = none := by
  have hf : (List.replicate k ev).find? (fun e => decide (eventName e = some name)) = none :=
    List.find?_eq_none.2 fun x hx => by rw [List.eq_of_mem_replicate hx]; simp [h]
  unfold lastEventTypeFor
  rw [List.reverse_replicate, hf]
  rfl

theorem gmc_knownset_step (getNs : String → Option KNamespace) (w : WatcherState)
    (n : ChangeNote) (init : Finset String) (log : List Event)
    (h : KnownSetInv init w.knownProjects log) :
    KnownSetInv init (GroupMembershipChanged getNs w n).1.knownProjects
      (log ++ (GroupMembershipChanged getNs w n).2.toList) := by
  rcases gmc_shape getNs w n with hs |
    ⟨w1, ev, msg, _, _, heq, _, _, _, _, _, _, hks⟩
  · rw [hs]
    simpa using h
  · have hstate : (GroupMembershipChanged getNs w n).1.knownProjects = w1.knownProjects := by
      rw [heq]
      exact enqueueOrFail_knownProjects w1 ev msg
    have hlog : log ++ (GroupMembershipChanged getNs w n).2.toList = log ++ [ev] := by
      simp [heq]
    intro name
    rw [hstate, hlog]
    rcases hks with ⟨htype, hname, hval⟩ | ⟨ns, htype, hname, hval⟩
    · by_cases hn : name = n.namespaceName
      · subst hn
        rw [hval, lastEventTypeFor_append_match log ev n.namespaceName hname, htype]
        simp
      · rw [hval, lastEventTypeFor_append_skip log ev name
          (by rw [hname]; intro hc; exact hn (Option.some.inj hc).symm)]
        simpa [Finset.mem_erase, hn] using h name
    · by_cases hn : name = ns.name
      · subst hn
        rw [hval, lastEventTypeFor_append_match log ev _ hname]
        simp only [Finset.mem_insert, true_or, true_iff]
        rcases htype with h1 | h1 <;> simp [h1]
      · rw [hval, lastEventTypeFor_append_skip log ev name
          (by rw [hname]; intro hc; exact hn (Option.some.inj hc).symm)]
        simpa [Finset.mem_insert, hn] using h name

theorem runIntake_knownset (getNs : String → Option KNamespace) (notes : List ChangeNote) :
    ∀ (w : WatcherState) (init : Finset String) (log : List Event),
    KnownSetInv init w.knownProjects log →
    KnownSetInv init (runIntake getNs w notes).knownProjects
      (log ++ (runIntakeLog getNs w notes).2) := by
  induction notes with
  | nil => intro w init log h; simpa [runIntake, runIntakeLog] using h
  | cons n rest ih =>
    intro w init log h
    rcases Bool.eq_false_or_eq_true w.registered with hr | hr
    · have hstep := gmc_knownset_step getNs w n init log h
      have hrec := ih (GroupMembershipChanged getNs w n).1 init
        (log ++ (GroupMembershipChanged getNs w n).2.toList) hstep
      simpa [runIntake, runIntakeLog, hr, List.append_assoc] using hrec
    · simpa [runIntake, runIntakeLog, hr] using h

/-! ## Claim theorems -/

/-- C1: in every `GroupMembershipChanged` call, `hasAccess` holds iff the
watcher's username is in `latestUsers` or one of its groups is in
`latestGroups`; `removed` holds iff `hasAccess` fails and the username is
in `removedUsers` or one of its groups is in `removedGroups`; when neither
holds the call leaves the state unchanged and produces no event; and when
`hasAccess` holds and the lookup succeeds, the produced event's kind is
`Modified` if the name was already in `knownProjects` and `Added`
otherwise, the resolved namespace's name is inserted into `knownProjects`,
and — when the buffer has room — the event is enqueued. -/
theorem gmc_access_spec (getNs : String → Option KNamespace) (w : WatcherState)
    (n : ChangeNote) :
    (gmcHasAccess w n = true ↔
      (w.username ∈ n.latestUsers ∨ ∃ g ∈ w.groups, g ∈ n.latestGroups)) ∧
    (gmcRemoved w n = true ↔
      (gmcHasAccess w n = false ∧
        (w.username ∈ n.removedUsers ∨ ∃ g ∈ w.groups, g ∈ n.removedGroups))) ∧
    (gmcHasAccess w n = false → gmcRemoved w n = false →
      GroupMembershipChanged getNs w n = (w, none)) ∧
    (∀ ns : KNamespace, gmcHasAccess w n = true → getNs n.namespaceName = some ns →
      (GroupMembershipChanged getNs w n).2 =
        some ⟨if n.namespaceName ∈ w.knownProjects then EventType.Modified else EventType.Added,
          EventObject.project ns⟩ ∧
      (GroupMembershipChanged getNs w n).1.knownProjects = insert ns.name w.knownProjects ∧
      (w.cacheIncoming.length < w.capacity →
        (GroupMembershipChanged getNs w n).1.cacheIncoming =
          w.cacheIncoming ++
            [⟨if n.namespaceName ∈ w.knownProjects then EventType.Modified else EventType.Added,
              EventObject.project ns⟩])) := by
  refine ⟨?_, ?_, ?_, ?_⟩
  · simp [gmcHasAccess, setHas, setHasAny, List.any_eq_true]
  · simp [gmcRemoved, setHas, setHasAny, List.any_eq_true, Bool.and_eq_true,
      Bool.not_eq_true']
  · intro h1 h2
    simp [GroupMembershipChanged, h1, h2]
  · intro ns hacc hns
    have hrem : gmcRemoved w n = false := by simp [gmcRemoved, hacc]
    refine ⟨?_, ?_, ?_⟩
    · by_cases hmem : n.namespaceName ∈ w.knownProjects <;>
        simp [GroupMembershipChanged, hrem, hacc, hns, setHas, hmem]
    · simp only [GroupMembershipChanged, hrem, hacc, hns]
      simp only [Bool.false_eq_true, if_false, if_true, enqueueOrFail]
      split <;> rfl
    · intro hlen
      by_cases hmem : n.namespaceName ∈ w.knownProjects <;>
        simp [GroupMembershipChanged, hrem, hacc, hns, setHas, hmem, enqueueOrFail, hlen]

/-- Witness for C1: applying the theorem at concrete inputs. -/
theorem gmc_access_spec_witness :
    (GroupMembershipChanged exGetNs exWatcher exNoteA).2 =
      some ⟨if exNoteA.namespaceName ∈ exWatcher.knownProjects then EventType.Modified
            else EventType.Added, EventObject.project ⟨"a", "pa"⟩⟩ ∧
    (GroupMembershipChanged exGetNs exWatcher exNoteA).1.knownProjects =
      insert "a" exWatcher.knownProjects := by
  have h := (gmc_access_spec exGetNs exWatcher exNoteA).2.2.2 ⟨"a", "pa"⟩ (by decide) (by decide)
  exact ⟨h.1, h.2.1⟩

/-- C6: `Stop` is idempotent — any `k + 1` invocations produce the same
state as a single one, the first call closes the cancellation signal, and
a later call on an already stopped watcher is a no-op (so there is no
double close of `userStop`). -/
theorem Stop_idempotent (w : WatcherState) (k : Nat) :
    Stop^[k + 1] w = Stop w ∧ (Stop w).stopped = true ∧ Stop { w with stopped := true } =
      { w with stopped := true } := by
  refine ⟨?_, ?_, by simp [Stop]⟩
  · induction k with
    | zero => rw [Function.iterate_one]
    | succ m ih => rw [Function.iterate_succ_apply', ih, Stop_Stop]
  · by_cases h : w.stopped <;> simp [Stop, h]

/-- C8: a `hasAccess` change whose namespace lookup fails is a recoverable
skip — the handler returns with no event and the watcher state (KnownSet,
buffer, error slot, registration) entirely unchanged. -/
theorem lookup_failure_noop (getNs : String → Option KNamespace) (w : WatcherState)
    (n : ChangeNote) (hacc : gmcHasAccess w n = true)
    (hfail : getNs n.namespaceName = none) :
    GroupMembershipChanged getNs w n = (w, none) := by
  have hrem : gmcRemoved w n = false := by simp [gmcRemoved, hacc]
  simp [GroupMembershipChanged, hrem, hacc, hfail]

/-- Witness for C8. -/
theorem lookup_failure_noop_witness :
    GroupMembershipChanged exGetNs exWatcher exNoteB = (exWatcher, none) :=
  lookup_failure_noop exGetNs exWatcher exNoteB (by decide) (by decide)

/-- C9: a removal notification for a name absent from `knownProjects`
returns with no event and the watcher state (KnownSet, buffer, error slot,
registration) entirely unchanged. -/
theorem irrelevant_removal_noop (getNs : String → Option KNamespace) (w : WatcherState)
    (n : ChangeNote) (hrem : gmcRemoved w n = true)
    (habs : n.namespaceName ∉ w.knownProjects) :
    GroupMembershipChanged getNs w n = (w, none) := by
  have h : setHas w.knownProjects n.namespaceName = false := by simp [setHas, habs]
  simp [GroupMembershipChanged, hrem, h]

/-- Witness for C9. -/
theorem irrelevant_removal_noop_witness :
    GroupMembershipChanged exGetNs exWatcher exNoteRemB = (exWatcher, none) :=
  irrelevant_removal_noop exGetNs exWatcher exNoteRemB (by decide) (by decide)

/-- C10: `NewUserProjectWatcher` discards the `List` error and
unconditionally dereferences the returned list — when the list pointer is
non-nil, `knownProjects` is exactly the set of names of the listed items
and `initialProjects` is empty unless `includeAllExistingProjects` is set
(in which case it equals the listed items); when the pointer is nil the
construction dereferences nil and panics (`none`). -/
theorem newWatcher_spec (username : String) (groups : List String)
    (nl : NamespaceList) (flag : Bool) :
    (∃ w : WatcherState,
      NewUserProjectWatcher username groups (some nl) flag = some w ∧
      (∀ x : String, x ∈ w.knownProjects ↔ x ∈ nl.items.map KNamespace.name) ∧
      w.initialProjects = (if flag then nl.items else []) ∧
      w.capacity = 1000 ∧ w.cacheIncoming = [] ∧ w.cacheError = none) ∧
    NewUserProjectWatcher username groups none flag = none := by
  refine ⟨⟨_, rfl, ?_, rfl, rfl, rfl, rfl⟩, rfl⟩
  intro x
  simp [mem_foldl_insert_name]

/-- C2: with buffer capacity `N`, if `N + 1` relevant changes (each one
producing an event) are delivered before any draining, the final call
deregisters the watcher and records one terminal error, and every
sufficiently long relay schedule ends the stream with exactly that one
`Error` event followed immediately by the deregistration and the channel
close — nothing reaches the consumer after it. -/
theorem overflow_terminality (getNs : String → Option KNamespace) (w : WatcherState)
    (notes : List ChangeNote)
    (hreg : w.registered = true) (hbuf : w.cacheIncoming = []) (herr : w.cacheError = none)
    (hstop : w.stopped = false)
    (hlen : notes.length = w.capacity + 1)
    (hall : (runIntakeLog getNs w notes).2.length = notes.length) :
    (runIntake getNs w notes).registered = false ∧
    ∃ m, (runIntake getNs w notes).cacheError = some m ∧
      (m = "add notification timeout" ∨ m = "delete notification timeout") ∧
      ∀ sched : List (SelChoice × Bool),
        w.initialProjects.length + w.capacity < sched.length →
        ∃ k, watchActs sched (runIntake getNs w notes) =
            ((runIntake getNs w notes).cacheIncoming.take k).map OutAct.emit ++
              [OutAct.emit (makeErrorEvent m), OutAct.dereg, OutAct.closeOut] ∧
          errorEmitCount
            (((runIntake getNs w notes).cacheIncoming.take k).map OutAct.emit) = 0 := by
  obtain ⟨c1, ⟨m, hm, hmsg⟩, c3⟩ := runIntake_overflow_core getNs notes w hreg herr
    (by rw [hbuf]; simp) hall (by rw [hbuf]; simpa using hlen)
  refine ⟨c1, m, hm, hmsg, ?_⟩
  intro sched hsched
  obtain ⟨hps, hpc, hpi⟩ := runIntake_preserves getNs w notes
  obtain ⟨k, hk⟩ := watchInitial_error_terminal (runIntake getNs w notes).initialProjects sched
    (runIntake getNs w notes).cacheIncoming m (by rw [hpi, c3]; exact hsched)
  refine ⟨k, ?_, ?_⟩
  · unfold watchActs watchRun
    rw [hm, hps.trans hstop, hk]
    simp
  · apply errorEmitCount_emit_zero
    intro e he
    exact runIntake_buffer_no_error getNs w notes (by rw [hbuf]; simp) e
      (List.mem_of_mem_take he)

/-- Witness for C2: a capacity-2 watcher fed three relevant changes. -/
theorem overflow_terminality_witness :
    (runIntake exGetNs exWatcher [exNoteA, exNoteA, exNoteA]).registered = false :=
  (overflow_terminality exGetNs exWatcher [exNoteA, exNoteA, exNoteA] rfl rfl rfl rfl
    (by decide) (by decide)).1

/-- C3: for any run of relevant changes processed without overflow (final
error slot empty), a sufficiently long relay schedule delivers first every
entry of the initial snapshot as an `Added` event, in snapshot order, and
then the buffered events in exactly the order the intake handler enqueued
them. -/
theorem relay_fifo_order (getNs : String → Option KNamespace) (w : WatcherState)
    (notes : List ChangeNote) (sched : List (SelChoice × Bool))
    (hbuf : w.cacheIncoming = []) (herr : w.cacheError = none) (hstop : w.stopped = false)
    (hnov : (runIntake getNs w notes).cacheError = none)
    (hsched : w.initialProjects.length + (runIntakeLog getNs w notes).2.length ≤
      sched.length) :
    watchActs sched (runIntake getNs w notes) =
      (w.initialProjects.map fun p => OutAct.emit (addedEvent p)) ++
        (runIntakeLog getNs w notes).2.map OutAct.emit := by
  obtain ⟨hfifo, _⟩ := runIntake_no_overflow_buffer getNs notes w herr hnov
  obtain ⟨hps, hpc, hpi⟩ := runIntake_preserves getNs w notes
  have hbuf2 : (runIntake getNs w notes).cacheIncoming = (runIntakeLog getNs w notes).2 := by
    rw [hfifo, hbuf]
    rfl
  have hres := watchInitial_no_error (runIntake getNs w notes).initialProjects sched
    (runIntake getNs w notes).cacheIncoming (by rw [hpi, hbuf2]; exact hsched)
  unfold watchActs watchRun
  rw [hnov, hps.trans hstop, hres]
  simp [hpi, hbuf2]

/-- Witness for C3. -/
theorem relay_fifo_order_witness :
    watchActs [(SelChoice.bufC, true)] (runIntake exGetNs exWatcher [exNoteA]) =
      (exWatcher.initialProjects.map fun p => OutAct.emit (addedEvent p)) ++
        (runIntakeLog exGetNs exWatcher [exNoteA]).2.map OutAct.emit :=
  relay_fifo_order exGetNs exWatcher [exNoteA] [(SelChoice.bufC, true)] rfl rfl rfl
    (by decide) (by decide)

/-- C4 (amended): with the event log taken to be the events the handler
processed — computed and applied to KnownSet, whether or not their enqueue
succeeded — the invariant holds from construction onward: a name is in
KnownSet iff the last processed event about it (if any) was `Added` or
`Modified`, and a name with no processed event is in KnownSet iff it was
in the set listed at construction.  (As literally stated for *enqueued*
events the claim fails on the overflow branches; see the
counterexample.) -/
theorem knownset_processed_inv (username : String) (groups : List String)
    (nl : NamespaceList) (flag : Bool) (getNs : String → Option KNamespace)
    (notes : List ChangeNote) (w0 : WatcherState)
    (_hw0 : NewUserProjectWatcher username groups (some nl) flag = some w0) :
    KnownSetInv w0.knownProjects (runIntake getNs w0 notes).knownProjects
      (runIntakeLog getNs w0 notes).2 := by
  have hbase : KnownSetInv w0.knownProjects w0.knownProjects [] := by
    intro name
    simp [lastEventTypeFor]
  simpa using runIntake_knownset getNs notes w0 w0.knownProjects [] hbase

/-- Witness for C4's amended invariant. -/
theorem knownset_processed_inv_witness :
    KnownSetInv exConstructed.knownProjects
      (runIntake exGetNs exConstructed [exNoteA]).knownProjects
      (runIntakeLog exGetNs exConstructed [exNoteA]).2 :=
  knownset_processed_inv "u" [] ⟨[]⟩ false exGetNs [exNoteA] exConstructed (by decide)

set_option maxRecDepth 100000 in
/-- Counterexample for C4 as stated: with the log of *enqueued* events
(the buffer, nothing having been drained), the invariant holds at a
watcher whose 1000-slot buffer is full, but is destroyed by the next
`GroupMembershipChanged` call: the removal of `a` deletes it from
KnownSet, yet the `Deleted` event is never enqueued (overflow), so the
last enqueued event for `a` stays `Modified`. -/
theorem knownset_enqueued_cex :
    KnownSetInv ∅ wFull.knownProjects wFull.cacheIncoming ∧
    ¬ KnownSetInv ∅ (GroupMembershipChanged exGetNs wFull exNoteRemA).1.knownProjects
        (GroupMembershipChanged exGetNs wFull exNoteRemA).1.cacheIncoming := by
  have hev : eventName evModA = some "a" := rfl
  have hWbuf : wFull.cacheIncoming = List.replicate 1000 evModA := rfl
  have hWknown : wFull.knownProjects = {"a"} := rfl
  have hlastA : lastEventTypeFor wFull.cacheIncoming "a" = some EventType.Modified := by
    rw [hWbuf, show (1000 : Nat) = 999 + 1 from rfl]
    exact lastEventTypeFor_replicate_match 999 evModA "a" hev
  have hinv : KnownSetInv ∅ wFull.knownProjects wFull.cacheIncoming := by
    intro name
    by_cases hn : name = "a"
    · subst hn
      rw [hlastA, hWknown]
      simp
    · have h1 : lastEventTypeFor wFull.cacheIncoming name = none := by
        rw [hWbuf]
        exact lastEventTypeFor_replicate_skip 1000 evModA name
          (by rw [hev]; intro hc; exact hn (Option.some.inj hc).symm)
      rw [h1, hWknown]
      simp [hn]
  refine ⟨hinv, ?_⟩
  have hk : (GroupMembershipChanged exGetNs wFull exNoteRemA).1.knownProjects =
      wFull.knownProjects.erase "a" := rfl
  have hb : (GroupMembershipChanged exGetNs wFull exNoteRemA).1.cacheIncoming =
      wFull.cacheIncoming := rfl
  intro hinv2
  have h2 := hinv2 "a"
  rw [hk, hb, hlastA, hWknown] at h2
  simp at h2

/-- C5 (amended): the error slot is set at most once across any dispatcher
run and never overwritten thereafter; and on the relay side — for a buffer
holding only non-error events, as every reachable buffer does — at most
one `Error` event is ever delivered, and if one is delivered it is the
last delivery, followed immediately by the deregistration and the channel
close.  (The claim's stronger reading, that no non-error event is
delivered after the slot is *set*, is false: see the counterexample.) -/
theorem error_slot_spec (getNs : String → Option KNamespace) (w0 w : WatcherState)
    (sched : List (SelChoice × Bool)) :
    (w0.cacheError = none →
      ∀ (a b : List ChangeNote) (m : String),
        (runIntake getNs w0 a).cacheError = some m →
        (runIntake getNs w0 (a ++ b)).cacheError = some m) ∧
    ((∀ e ∈ w.cacheIncoming, e.type ≠ EventType.Error) →
      errorEmitCount (watchActs sched w) ≤ 1 ∧
      ∀ e : Event, OutAct.emit e ∈ watchActs sched w → e.type = EventType.Error →
        ∃ pre, watchActs sched w = pre ++ [OutAct.emit e, OutAct.dereg, OutAct.closeOut] ∧
          errorEmitCount pre = 0) := by
  constructor
  · intro h0 a b m hset
    have hunreg : (runIntake getNs w0 a).registered = false :=
      runIntake_err_unreg getNs w0 a h0 (by simp [hset])
    have hsplit : runIntake getNs w0 (a ++ b) = runIntake getNs w0 a := by
      show (runIntakeLog getNs w0 (a ++ b)).1 = runIntake getNs w0 a
      rw [runIntakeLog_append getNs a w0 b]
      show (runIntakeLog getNs (runIntake getNs w0 a) b).1 = runIntake getNs w0 a
      rw [runIntakeLog_unreg getNs _ b hunreg]
    rw [hsplit]
    exact hset
  · intro hbuf
    have hdef : errorEmitCount
        (match (watchRun sched w).2 with
          | RelayRes.returned => [OutAct.dereg, OutAct.closeOut]
          | RelayRes.suspended => []) = 0 := by
      cases (watchRun sched w).2 <;> simp [errorEmitCount, isErrorEmit]
    rcases watchInitial_error_structure w.initialProjects sched w.cacheIncoming w.cacheError
        w.stopped hbuf with h0 | ⟨pre, m, hpre, hprecnt⟩
    · constructor
      · unfold watchActs
        rw [errorEmitCount_append]
        have h0' : errorEmitCount (watchRun sched w).1 = 0 := h0
        omega
      · intro e he htype
        unfold watchActs at he
        rcases List.mem_append.1 he with h1 | h1
        · have hpos := errorEmitCount_pos_of_mem h1 htype
          have h0' : errorEmitCount (watchRun sched w).1 = 0 := h0
          omega
        · exfalso
          cases hcase : (watchRun sched w).2 <;> rw [hcase] at h1 <;> simp at h1
    · have hrun : watchRun sched w = (pre ++ [OutAct.emit (makeErrorEvent m)],
          RelayRes.returned) := hpre
      have hacts : watchActs sched w =
          pre ++ [OutAct.emit (makeErrorEvent m), OutAct.dereg, OutAct.closeOut] := by
        unfold watchActs
        rw [hrun]
        simp
      constructor
      · rw [hacts, errorEmitCount_append]
        have : errorEmitCount [OutAct.emit (makeErrorEvent m), OutAct.dereg,
            OutAct.closeOut] = 1 := by
          simp [errorEmitCount, isErrorEmit, makeErrorEvent]
        omega
      · intro e he htype
        rw [hacts] at he
        rcases List.mem_append.1 he with h1 | h1
        · exfalso
          have hpos := errorEmitCount_pos_of_mem h1 htype
          omega
        · simp only [List.mem_cons, List.mem_singleton] at h1
          rcases h1 with h1 | h1 | h1
          · have heq : e = makeErrorEvent m := by
              injection h1
            exact ⟨pre, by rw [hacts, heq], hprecnt⟩
          · exact absurd h1 (by simp)
          · simp at h1

/-- Witness for C5's amended theorem. -/
theorem error_slot_spec_witness :
    errorEmitCount (watchActs exSchedBufErr wErrBuf) ≤ 1 :=
  ((error_slot_spec exGetNs exWatcher wErrBuf exSchedBufErr).2 (by decide)).1

/-- Counterexample for C5 as stated: with the error slot already set and
one `Added` event still buffered, a schedule that serves the buffer first
delivers that non-error event after the slot was set — "once the slot is
set, no further non-error event is produced" fails on the code (the
relay's `select` may drain `cacheIncoming` before it reads
`cacheError`). -/
theorem error_slot_cex :
    wErrBuf.cacheError = some "m" ∧
    OutAct.emit evAddA ∈ watchActs exSchedBufErr wErrBuf ∧
    isErrorEmit (OutAct.emit evAddA) = false :=
  ⟨rfl, by decide, by decide⟩

/-- C7: whenever the relay loop returns (error emitted, stop observed),
the deferred actions deregister the watcher exactly once and close the
outgoing channel exactly once, after all deliveries; while the loop is
still running neither has happened. -/
theorem relay_termination (sched : List (SelChoice × Bool)) (w : WatcherState) :
    ((watchRun sched w).2 = RelayRes.returned →
      (watchActs sched w).count OutAct.dereg = 1 ∧
      (watchActs sched w).count OutAct.closeOut = 1 ∧
      ∃ pre, watchActs sched w = pre ++ [OutAct.dereg, OutAct.closeOut] ∧
        ∀ a ∈ pre, ∃ e, a = OutAct.emit e) ∧
    ((watchRun sched w).2 = RelayRes.suspended →
      (watchActs sched w).count OutAct.dereg = 0 ∧
      (watchActs sched w).count OutAct.closeOut = 0) := by
  have hemits : ∀ a ∈ (watchRun sched w).1, ∃ e, a = OutAct.emit e :=
    watchInitial_acts_emit w.initialProjects sched w.cacheIncoming w.cacheError w.stopped
  have hd : (watchRun sched w).1.count OutAct.dereg = 0 := by
    rw [List.count_eq_zero]
    intro hc
    rcases hemits _ hc with ⟨e, he⟩
    exact OutAct.noConfusion he
  have hc0 : (watchRun sched w).1.count OutAct.closeOut = 0 := by
    rw [List.count_eq_zero]
    intro hc
    rcases hemits _ hc with ⟨e, he⟩
    exact OutAct.noConfusion he
  constructor
  · intro hret
    unfold watchActs
    rw [hret]
    refine ⟨?_, ?_, (watchRun sched w).1, rfl, hemits⟩
    · simp [List.count_append, hd]
    · simp [List.count_append, hc0]
  · intro hsus
    unfold watchActs
    rw [hsus]
    simp [List.count_append, hd, hc0]

/-- Witness for C7: a stopped watcher's relay returns at its first
scheduling point. -/
theorem relay_termination_witness :
    (watchActs [(SelChoice.stopC, true)] wStopped).count OutAct.dereg = 1 :=
  ((relay_termination [(SelChoice.stopC, true)] wStopped).1 (by decide)).1

end ProjectAuthWatch
